import Mathlib

/-!
Verification of the matador repository's specification against its code.

The repository ships three source files: the convex-hull / voltage-curve test
suite (tests/test_hull.py), the database refinement module (refine.py) and the
spectral plotting module (plotting/spectral_plotting.py).  The hull- and
voltage-curve engine itself (matador/hull.py, class QueryConvexHull) is not
part of the source tree: only its tests are.  Definitions about that engine
are therefore modelled from the specification text and are marked as such in
their doc comments.  Definitions about refine.py and spectral_plotting.py are
translated from the source.

All numeric quantities are modelled as rationals; the NaN capacity sentinel of
a voltage curve is modelled as the value-free alternative of an Option.
-/

set_option linter.unusedSectionVars false

namespace Matador

/-! ## Hull data model (modelled from the spec)

Spec section 3: a PhasePoint is a composition vector over the element basis
together with a formation energy per atom. -/

/-- Modelled from the spec: missing hull.py data model.  A phase point keeps a
fractional composition over the element type `E` and a formation energy per
atom (spec section 3, PhasePoint). -/
structure PhasePt (E : Type) where
  comp : E → ℚ
  energy : ℚ

variable {E : Type} [Fintype E] [DecidableEq E]

/-- Modelled from the spec: missing hull.py CompositionIndexer.  A phase point
is supported on the basis `B` when every element outside the requested subset
has zero fraction (spec section 4.1: structures containing an element outside
the requested subset are excluded entirely). -/
def supportedOn (B : Finset E) (p : PhasePt E) : Prop :=
  ∀ e : E, e ∉ B → p.comp e = 0

instance (B : Finset E) (p : PhasePt E) : Decidable (supportedOn B p) :=
  inferInstanceAs (Decidable (∀ e : E, e ∉ B → p.comp e = 0))

/-- Modelled from the spec: missing hull.py extraneous-element filtering.  The
admissible index set of a dataset `pts` for basis `B`: indices of structures
whose composition involves only elements of `B` (spec section 4.1). -/
def admissible {n : ℕ} (pts : Fin n → PhasePt E) (B : Finset E) : Finset (Fin n) :=
  Finset.univ.filter (fun i => supportedOn B (pts i))

/-- Modelled from the spec: missing hull.py HullEngine membership test.  A
point `p` lies on the lower convex hull of the admissible subset `A` of the
dataset when no convex combination of admissible points with the same
composition has strictly lower energy (spec section 4.3: the lower facets form
the minimum-energy envelope, and section 3: every facet is a supporting
hyperplane with all other points on or above it). -/
def onHull {n : ℕ} (pts : Fin n → PhasePt E) (A : Finset (Fin n)) (p : PhasePt E) : Prop :=
  ∀ w : Fin n → ℚ, (∀ i, 0 ≤ w i) → (∀ i, i ∉ A → w i = 0) →
    (∑ i ∈ A, w i) = 1 → (∀ e, (∑ i ∈ A, w i * (pts i).comp e) = p.comp e) →
    p.energy ≤ ∑ i ∈ A, w i * (pts i).energy

/-- Modelled from the spec: missing hull.py stable-hull output (hull_cursor).
Indices of the dataset that survive the element filter for basis `B` and lie
on the lower convex hull of the filtered set. -/
def hullMembers {n : ℕ} (pts : Fin n → PhasePt E) (B : Finset E) : Set (Fin n) :=
  {i | i ∈ admissible pts B ∧ onHull pts (admissible pts B) (pts i)}

/-! ## Hull distances (modelled from the spec)

Spec section 4.3: hull_distance is the vertical energy gap between a point and
the supporting hyperplane of its enclosing lower facet; a point within 1e-9
energy units of the hyperplane is treated as on-hull and its distance is
clamped to exactly 0. -/

/-- Modelled from the spec: missing hull.py facet representation.  A facet's
supporting hyperplane, stored as the affine map giving the interpolated hull
energy at a composition (spec section 3, Hull). -/
structure Facet (E : Type) where
  grad : E → ℚ
  offset : ℚ

/-- Modelled from the spec: interpolated hull energy of facet `f` at
composition `c` (spec section 4.3, barycentric interpolation within the
enclosing lower facet, expressed through the facet's supporting plane). -/
def planeAt (f : Facet E) (c : E → ℚ) : ℚ :=
  (∑ e : E, f.grad e * c e) + f.offset

/-- Modelled from the spec: the Hull invariant of spec section 3 — each facet
is a supporting hyperplane with all points of the dataset on or above it. -/
def supporting {n : ℕ} (pts : Fin n → PhasePt E) (f : Facet E) : Prop :=
  ∀ i : Fin n, planeAt f (pts i).comp ≤ (pts i).energy

instance {n : ℕ} (pts : Fin n → PhasePt E) (f : Facet E) : Decidable (supporting pts f) :=
  inferInstanceAs (Decidable (∀ i : Fin n, planeAt f (pts i).comp ≤ (pts i).energy))

/-- Modelled from the spec: the 1e-9 energy tolerance of hull classification
(spec section 4.3). -/
def hullTol : ℚ := 1 / 1000000000

/-- Modelled from the spec: raw vertical hull distance of point `p` against
the supporting plane of its enclosing facet `f` (spec section 4.3). -/
def rawHullDist (f : Facet E) (p : PhasePt E) : ℚ :=
  p.energy - planeAt f p.comp

/-- Modelled from the spec: distances within the 1e-9 tolerance of the
supporting hyperplane are clamped to exactly 0 (spec section 4.3). -/
def clampDist (d : ℚ) : ℚ :=
  if |d| < hullTol then 0 else d

/-- Modelled from the spec: a point within 1e-9 energy units of the
supporting hyperplane is classified as on-hull (spec section 4.3). -/
def onHullWithin (f : Facet E) (p : PhasePt E) : Prop :=
  |rawHullDist f p| < hullTol

instance (f : Facet E) (p : PhasePt E) : Decidable (onHullWithin f p) :=
  inferInstanceAs (Decidable (|rawHullDist f p| < hullTol))

/-- Modelled from the spec: the hull distance reported for a point, i.e. the
raw facet distance after tolerance clamping (spec section 4.3). -/
def hullDistance (f : Facet E) (p : PhasePt E) : ℚ :=
  clampDist (rawHullDist f p)

/-! ## Basis-restriction lemmas for the hull membership model -/

theorem supportedOn_mono {B B' : Finset E} (hBB : B ⊆ B') {p : PhasePt E}
    (hp : supportedOn B p) : supportedOn B' p :=
  fun e he => hp e (fun hmem => he (hBB hmem))

theorem admissible_mono {n : ℕ} (pts : Fin n → PhasePt E) {B B' : Finset E}
    (hBB : B ⊆ B') : admissible pts B ⊆ admissible pts B' := by
  intro i hi
  simp only [admissible, Finset.mem_filter, Finset.mem_univ, true_and] at hi ⊢
  exact supportedOn_mono hBB hi

/-- Weights of a convex combination over the larger admissible set vanish on
points outside the smaller admissible set, when the target composition is
supported on the smaller basis: a point involving an element outside `B`
cannot take part in a combination whose composition is zero there. -/
theorem weight_vanishes_outside {n : ℕ} {pts : Fin n → PhasePt E}
    (hnn : ∀ i e, 0 ≤ (pts i).comp e) {B B' : Finset E} {p : PhasePt E}
    (hp : supportedOn B p) {w : Fin n → ℚ} (hw0 : ∀ i, 0 ≤ w i)
    (hcomp : ∀ e, (∑ i ∈ admissible pts B', w i * (pts i).comp e) = p.comp e) :
    ∀ j ∈ admissible pts B', j ∉ admissible pts B → w j = 0 := by
  intro j hj hnj
  simp only [admissible, Finset.mem_filter, Finset.mem_univ, true_and] at hnj
  simp only [supportedOn, not_forall] at hnj
  obtain ⟨e0, he0B, he0c⟩ := hnj
  have hsum0 : (∑ i ∈ admissible pts B', w i * (pts i).comp e0) = 0 := by
    rw [hcomp e0, hp e0 he0B]
  have hterm : ∀ i ∈ admissible pts B', 0 ≤ w i * (pts i).comp e0 :=
    fun i _ => mul_nonneg (hw0 i) (hnn i e0)
  have hzero := (Finset.sum_eq_zero_iff_of_nonneg hterm).mp hsum0 j hj
  rcases mul_eq_zero.mp hzero with h | h
  · exact h
  · exact absurd h he0c

/-- Lower-hull membership transfers from the filtered subset for `B` to the
filtered subset for a superset basis `B'`, for points supported on `B`. -/
theorem onHull_transfer {n : ℕ} {pts : Fin n → PhasePt E}
    (hnn : ∀ i e, 0 ≤ (pts i).comp e) {B B' : Finset E} (hBB : B ⊆ B')
    {p : PhasePt E} (hp : supportedOn B p)
    (h : onHull pts (admissible pts B) p) : onHull pts (admissible pts B') p := by
  intro w hw0 hwout hsum hcomp
  have hAA' : admissible pts B ⊆ admissible pts B' := admissible_mono pts hBB
  have hz : ∀ j ∈ admissible pts B', j ∉ admissible pts B → w j = 0 :=
    weight_vanishes_outside hnn hp hw0 hcomp
  have hwoutA : ∀ i, i ∉ admissible pts B → w i = 0 := by
    intro i hi
    by_cases hA' : i ∈ admissible pts B'
    · exact hz i hA' hi
    · exact hwout i hA'
  have hsumA : (∑ i ∈ admissible pts B, w i) = ∑ i ∈ admissible pts B', w i :=
    Finset.sum_subset hAA' (fun j hj hnj => hz j hj hnj)
  have hcompA : ∀ e, (∑ i ∈ admissible pts B, w i * (pts i).comp e) = p.comp e := by
    intro e
    rw [Finset.sum_subset hAA' (fun j hj hnj => by rw [hz j hj hnj, zero_mul])]
    exact hcomp e
  have henergy : (∑ i ∈ admissible pts B, w i * (pts i).energy)
      = ∑ i ∈ admissible pts B', w i * (pts i).energy :=
    Finset.sum_subset hAA' (fun j hj hnj => by rw [hz j hj hnj, zero_mul])
  have := h w hw0 hwoutA (by rw [hsumA]; exact hsum) hcompA
  rwa [henergy] at this

theorem hullMembers_mono {n : ℕ} {pts : Fin n → PhasePt E}
    (hnn : ∀ i e, 0 ≤ (pts i).comp e) {B B' : Finset E} (hBB : B ⊆ B') :
    hullMembers pts B ⊆ hullMembers pts B' := by
  rintro i ⟨hiA, hiH⟩
  have hsupp : supportedOn B (pts i) := by
    simpa only [admissible, Finset.mem_filter, Finset.mem_univ, true_and] using hiA
  exact ⟨admissible_mono pts hBB hiA, onHull_transfer hnn hBB hsupp hiH⟩

/-- C2: for every input set, under the hull invariant of spec section 3 (the
enclosing facet's hyperplane supports the whole dataset), every point's
reported hull distance is non-negative, and every point classified as on-hull
(within tolerance 1e-9 of the supporting plane) has hull distance exactly 0,
distances below the tolerance being clamped to exactly 0. -/
theorem hull_dist_nonneg_on_hull_zero {n : ℕ} (pts : Fin n → PhasePt E)
    (f : Facet E) (hsupp : supporting pts f) :
    ∀ i : Fin n, 0 ≤ hullDistance f (pts i) ∧
      (onHullWithin f (pts i) → hullDistance f (pts i) = 0) := by
  intro i
  have hraw : 0 ≤ rawHullDist f (pts i) := sub_nonneg.mpr (hsupp i)
  constructor
  · unfold hullDistance clampDist
    split
    · exact le_refl 0
    · exact hraw
  · intro h
    unfold hullDistance clampDist
    exact if_pos h

/-- Concrete dataset used by the hull witnesses: one structure over a
two-element basis. -/
def demoPts : Fin 1 → PhasePt (Fin 2) :=
  fun _ => ⟨fun _ => 0, 0⟩

/-- Witness for C2: a one-point dataset supported by the zero facet, where the
theorem's hypothesis holds by computation. -/
theorem hull_dist_nonneg_on_hull_zero_witness :
    supporting demoPts ⟨fun _ => 0, -1⟩ ∧
      (∀ i : Fin 1, 0 ≤ hullDistance ⟨fun _ => 0, -1⟩ (demoPts i) ∧
        (onHullWithin ⟨fun _ => 0, -1⟩ (demoPts i) →
          hullDistance ⟨fun _ => 0, -1⟩ (demoPts i) = 0)) :=
  ⟨by simp [supporting, planeAt, demoPts],
    hull_dist_nonneg_on_hull_zero demoPts ⟨fun _ => 0, -1⟩
      (by simp [supporting, planeAt, demoPts])⟩

/-- C5: for every dataset and every pair of element bases with one a subset of
the other, the subset-basis hull has at most as many hull points as the
full-basis hull, and no subset-basis hull point involves an element outside
the subset basis (structures with extraneous elements are excluded entirely,
never reprojected). -/
theorem hull_basis_subset_count_and_exclusion {n : ℕ} (pts : Fin n → PhasePt E)
    (hnn : ∀ i e, 0 ≤ (pts i).comp e) (B B' : Finset E) (hBB : B ⊆ B') :
    (hullMembers pts B).ncard ≤ (hullMembers pts B').ncard ∧
      ∀ i ∈ hullMembers pts B, ∀ e : E, (pts i).comp e ≠ 0 → e ∈ B := by
  constructor
  · exact Set.ncard_le_ncard (hullMembers_mono hnn hBB) (Set.toFinite _)
  · rintro i ⟨hiA, -⟩ e hce
    simp only [admissible, Finset.mem_filter, Finset.mem_univ, true_and] at hiA
    by_contra heB
    exact hce (hiA e heB)

/-- Witness for C5: the demo dataset with the empty basis against the full
two-element basis. -/
theorem hull_basis_subset_count_and_exclusion_witness :
    ((∀ i e, 0 ≤ (demoPts i).comp e) ∧ (∅ : Finset (Fin 2)) ⊆ Finset.univ) ∧
      ((hullMembers demoPts ∅).ncard ≤ (hullMembers demoPts Finset.univ).ncard ∧
        ∀ i ∈ hullMembers demoPts ∅, ∀ e : Fin 2, (demoPts i).comp e ≠ 0 → e ∈ (∅ : Finset (Fin 2))) :=
  ⟨⟨by decide, by decide⟩,
    hull_basis_subset_count_and_exclusion demoPts (by decide) ∅ Finset.univ (by decide)⟩

/-! ## Hull state and batch distance queries (modelled from the spec)

Spec sections 4.3 and 4.5: the built hull exposes hull points, facets and the
per-point distances; precompute mode answers externally supplied
(composition, energy) probes against the fixed, already-built hull. -/

/-- Modelled from the spec: missing hull.py QueryConvexHull state.  The built
hull keeps its lower facets, the full input cursor, the stable subset
(hull_cursor) and the per-point hull distances (spec section 4.3, Output). -/
structure HullState (E : Type) where
  facets : List (Facet E)
  cursor : List (PhasePt E)
  hull_cursor : List (PhasePt E)
  hull_dist : List ℚ

/-- Modelled from the spec: interpolated energy of the lower hull at a
composition, the upper envelope of the lower facets' supporting planes (spec
section 4.3: the lower facets form the minimum-energy envelope). -/
def envelopeAt (facets : List (Facet E)) (c : E → ℚ) : ℚ :=
  match facets with
  | [] => 0
  | f :: fs => fs.foldl (fun m g => max m (planeAt g c)) (planeAt f c)

/-- Modelled from the spec: hull construction stores the directly computed
hull distance of every cursor point (spec section 4.3, hull_distance). -/
def construct_hull (facets : List (Facet E)) (cursor : List (PhasePt E))
    (hull_cursor : List (PhasePt E)) : HullState E :=
  { facets := facets, cursor := cursor, hull_cursor := hull_cursor,
    hull_dist := cursor.map (fun p => clampDist (p.energy - envelopeAt facets p.comp)) }

/-- Modelled from the spec: missing hull.py QueryConvexHull.get_hull_distances.
Given probe structures as (composition, energy) pairs, returns their hull
distances; in precompute mode the already-built hull is read once and probes
are answered against that fixed data, and hull state is never mutated (spec
section 4.3, Precompute mode). -/
def get_hull_distances (s : HullState E) (structures : List ((E → ℚ) × ℚ))
    (precompute : Bool) : List ℚ × HullState E :=
  match precompute with
  | true =>
    let cached := s.facets
    (structures.map (fun pr => clampDist (pr.2 - envelopeAt cached pr.1)), s)
  | false =>
    (structures.map (fun pr => clampDist (pr.2 - envelopeAt s.facets pr.1)), s)

/-- C4: hull distances computed directly during hull construction and those
computed through the precompute/batch-probe route on the same compositions
agree to 3 decimal places: same length, and entries at equal positions differ
by less than 1/1000. -/
theorem direct_vs_precompute_hull_dist (facets : List (Facet E))
    (cursor hc : List (PhasePt E)) :
    ((construct_hull facets cursor hc).hull_dist.length =
      ((get_hull_distances (construct_hull facets cursor hc)
        (cursor.map (fun p => (p.comp, p.energy))) true).1).length) ∧
    ∀ (i : ℕ) (a b : ℚ),
      (construct_hull facets cursor hc).hull_dist.get? i = some a →
      ((get_hull_distances (construct_hull facets cursor hc)
        (cursor.map (fun p => (p.comp, p.energy))) true).1).get? i = some b →
      |a - b| < 1 / 1000 := by
  have heq : (construct_hull facets cursor hc).hull_dist =
      ((get_hull_distances (construct_hull facets cursor hc)
        (cursor.map (fun p => (p.comp, p.energy))) true).1) := by
    simp [construct_hull, get_hull_distances, List.map_map, Function.comp]
  constructor
  · rw [heq]
  · intro i a b ha hb
    rw [← heq, ha] at hb
    obtain rfl : a = b := by injection hb
    simp

/-- Witness for C4: a one-point cursor against the empty facet list; the
distance computed both ways at position 0 is 0, and the two routes agree
within 1/1000 there. -/
theorem direct_vs_precompute_hull_dist_witness :
    ((construct_hull ([] : List (Facet (Fin 1))) [⟨fun _ => 0, 0⟩] []).hull_dist.get? 0 =
        some 0 ∧
      ((get_hull_distances (construct_hull ([] : List (Facet (Fin 1))) [⟨fun _ => 0, 0⟩] [])
        (([⟨fun _ => 0, 0⟩] : List (PhasePt (Fin 1))).map (fun p => (p.comp, p.energy)))
        true).1).get? 0 = some 0) ∧
    |(0 : ℚ) - 0| < 1 / 1000 :=
  ⟨⟨by simp [construct_hull, envelopeAt, clampDist],
      by simp [construct_hull, get_hull_distances, envelopeAt, clampDist]⟩,
    (direct_vs_precompute_hull_dist ([] : List (Facet (Fin 1))) [⟨fun _ => 0, 0⟩] []).2
      0 0 0 (by simp [construct_hull, envelopeAt, clampDist])
      (by simp [construct_hull, get_hull_distances, envelopeAt, clampDist])⟩

/-- C8: the precompute/batch-probe distance query never mutates hull state:
the hull's stable membership, facets and per-point distances (and the whole
state) are identical before and after the query. -/
theorem precompute_query_frame (s : HullState E) (probes : List ((E → ℚ) × ℚ)) :
    (get_hull_distances s probes true).2.hull_cursor = s.hull_cursor ∧
    (get_hull_distances s probes true).2.facets = s.facets ∧
    (get_hull_distances s probes true).2.hull_dist = s.hull_dist ∧
    (get_hull_distances s probes true).2 = s := by
  simp [get_hull_distances]

/-! ## Voltage curves (modelled from the spec)

Spec sections 3 and 4.4: walking the hull tie-lines (binary) or the
tie-simplex crossings of each pathway (ternary) yields plateau voltages from
the negative slope of formation energy against active-element content and a
capacity that accumulates the content change converted to a capacity unit;
every curve is terminated by a sentinel step with voltage 0 and capacity NaN
(modelled as the value-free Option alternative). -/

/-- Modelled from the spec: a voltage curve as its capacity array `Q`
(capacity NaN modelled as the value-free alternative) and its voltage array
(spec section 3, VoltageStep sequence). -/
structure VoltageCurve where
  Q : List (Option ℚ)
  voltages : List ℚ
deriving DecidableEq

/-- Modelled from the spec: adjacent hull vertices form the tie-lines of the
binary pathway (spec section 4.4); each entry pairs one hull vertex, as
(active content, formation energy), with the next. -/
def tieLines (hull : List (ℚ × ℚ)) : List ((ℚ × ℚ) × (ℚ × ℚ)) :=
  hull.zip hull.tail

/-- Modelled from the spec: the plateau voltage of a tie-line, the negative
slope of formation energy against active-element content across it (spec
section 4.4). -/
def tlVoltage (t : (ℚ × ℚ) × (ℚ × ℚ)) : ℚ :=
  -((t.2.2 - t.1.2) / (t.2.1 - t.1.1))

/-- Modelled from the spec: capacity accumulation along a curve — each step
adds the active-element content change converted to a capacity unit through
the positive conversion factor `conv` (spec section 4.4). -/
def accQ (conv : ℚ) : ℚ → ℚ → List ℚ → List ℚ
  | _, _, [] => []
  | acc, xprev, x :: xs =>
    (acc + conv * (x - xprev)) :: accQ conv (acc + conv * (x - xprev)) x xs

/-- Modelled from the spec: the body of a voltage curve over the ordered
tie-line (or tie-simplex crossing) list: the starting point repeats the first
plateau voltage at zero capacity, then every crossing contributes its
accumulated capacity and plateau voltage (spec section 4.4 and the reference
curve shapes of the tests). -/
def curveBody (conv : ℚ) (ts : List ((ℚ × ℚ) × (ℚ × ℚ))) : List (ℚ × ℚ) :=
  match ts with
  | [] => []
  | t0 :: _ =>
    (0, tlVoltage t0) ::
      ((accQ conv 0 t0.1.1 (ts.map (fun t => t.2.1))).zip (ts.map tlVoltage))

/-- Modelled from the spec: every returned curve is terminated by one sentinel
step with capacity NaN and voltage exactly 0 (spec sections 3 and 4.4). -/
def finalizeCurve (body : List (ℚ × ℚ)) : VoltageCurve :=
  ⟨body.map (fun s => some s.1) ++ [Option.none], body.map (fun s => s.2) ++ [0]⟩

/-- Modelled from the spec: the voltage curve of one pathway, from its ordered
tie-simplex crossings (spec section 4.4). -/
def pathway_voltage_curve (conv : ℚ) (ts : List ((ℚ × ℚ) × (ℚ × ℚ))) : VoltageCurve :=
  finalizeCurve (curveBody conv ts)

/-- Modelled from the spec: the input of voltage-curve derivation — a binary
hull walked directly, or the list of pathways found by the ternary pathway
search (spec section 4.4). -/
inductive VoltageInput where
  | binary (hull : List (ℚ × ℚ))
  | ternary (pathways : List (List ((ℚ × ℚ) × (ℚ × ℚ))))

/-- Modelled from the spec: missing hull.py QueryConvexHull.voltage_curve.
Binary input yields one curve from the hull's tie-lines; ternary input yields
one independently sentinel-terminated curve per pathway (spec section 4.4). -/
def voltage_curve (conv : ℚ) : VoltageInput → List VoltageCurve
  | .binary hull => [pathway_voltage_curve conv (tieLines hull)]
  | .ternary pws => pws.map (pathway_voltage_curve conv)

theorem finalizeCurve_length (body : List (ℚ × ℚ)) :
    (finalizeCurve body).Q.length = (finalizeCurve body).voltages.length := by
  simp [finalizeCurve]

theorem finalizeCurve_last_Q (body : List (ℚ × ℚ)) :
    (finalizeCurve body).Q.getLast? = some Option.none :=
  List.getLast?_concat _

theorem finalizeCurve_last_voltage (body : List (ℚ × ℚ)) :
    (finalizeCurve body).voltages.getLast? = some 0 :=
  List.getLast?_concat _

/-- C1: every voltage curve returned by voltage-curve derivation (binary or
ternary, every pathway) has capacity and voltage arrays of equal length, a
final capacity entry of NaN and a final voltage entry of exactly 0. -/
theorem voltage_curve_sentinel (conv : ℚ) (input : VoltageInput) :
    ∀ c ∈ voltage_curve conv input,
      c.Q.length = c.voltages.length ∧
        c.Q.getLast? = some Option.none ∧ c.voltages.getLast? = some 0 := by
  intro c hc
  have hcurve : ∃ ts, c = pathway_voltage_curve conv ts := by
    cases input with
    | binary hull =>
      simp only [voltage_curve, List.mem_singleton] at hc
      exact ⟨tieLines hull, hc⟩
    | ternary pws =>
      simp only [voltage_curve, List.mem_map] at hc
      obtain ⟨pw, -, rfl⟩ := hc
      exact ⟨pw, rfl⟩
  obtain ⟨ts, rfl⟩ := hcurve
  exact ⟨finalizeCurve_length _, finalizeCurve_last_Q _, finalizeCurve_last_voltage _⟩

/-- Witness for C1: the single curve of a concrete two-point binary hull. -/
theorem voltage_curve_sentinel_witness :
    (pathway_voltage_curve 1 (tieLines [((0 : ℚ), (0 : ℚ)), (1, -1)]) ∈
        voltage_curve 1 (VoltageInput.binary [(0, 0), (1, -1)])) ∧
      ((pathway_voltage_curve 1 (tieLines [((0 : ℚ), (0 : ℚ)), (1, -1)])).Q.length =
          (pathway_voltage_curve 1 (tieLines [((0 : ℚ), (0 : ℚ)), (1, -1)])).voltages.length ∧
        (pathway_voltage_curve 1 (tieLines [((0 : ℚ), (0 : ℚ)), (1, -1)])).Q.getLast? =
          some Option.none ∧
        (pathway_voltage_curve 1 (tieLines [((0 : ℚ), (0 : ℚ)), (1, -1)])).voltages.getLast? =
          some 0) :=
  ⟨by simp [voltage_curve],
    voltage_curve_sentinel 1 (VoltageInput.binary [(0, 0), (1, -1)]) _
      (by simp [voltage_curve])⟩

/-- Modelled from the spec: the active-element contents met along a pathway —
the content at the start of the first crossing, then the content reached by
each crossing in order (spec section 4.4, crossings in composition order). -/
def crossingXs (ts : List ((ℚ × ℚ) × (ℚ × ℚ))) : List ℚ :=
  match ts with
  | [] => []
  | t0 :: _ => t0.1.1 :: ts.map (fun t => t.2.1)

/-- Modelled from the spec: the crossings of a pathway are enumerated in
composition order, i.e. with non-decreasing active-element content (spec
section 4.4). -/
def orderedCrossings (ts : List ((ℚ × ℚ) × (ℚ × ℚ))) : Prop :=
  List.Chain' (· ≤ ·) (crossingXs ts)

/-- Modelled from the spec: the sortedness assumption of the walk — a binary
hull is walked by increasing active-element content, and every ternary
pathway's crossings come in composition order (spec section 4.4). -/
def inputSorted : VoltageInput → Prop
  | .binary hull => List.Chain' (fun a b => a.1 ≤ b.1) hull
  | .ternary pws => ∀ pw ∈ pws, orderedCrossings pw

theorem accQ_length (conv : ℚ) :
    ∀ (acc xprev : ℚ) (xs : List ℚ), (accQ conv acc xprev xs).length = xs.length := by
  intro acc xprev xs
  induction xs generalizing acc xprev with
  | nil => rfl
  | cons x rest ih => simp [accQ, ih]

theorem accQ_chain (conv : ℚ) (hconv : 0 ≤ conv) :
    ∀ (acc xprev : ℚ) (xs : List ℚ), List.Chain' (· ≤ ·) (xprev :: xs) →
      List.Chain' (· ≤ ·) (acc :: accQ conv acc xprev xs) := by
  intro acc xprev xs
  induction xs generalizing acc xprev with
  | nil => intro _; simp [accQ]
  | cons x rest ih =>
    intro h
    obtain ⟨hxx, h'⟩ := List.chain'_cons.mp h
    refine List.chain'_cons.mpr ⟨?_, ih _ x h'⟩
    exact le_add_of_nonneg_right (mul_nonneg hconv (sub_nonneg.mpr hxx))

theorem curveBody_Q_chain (conv : ℚ) (hconv : 0 ≤ conv)
    (ts : List ((ℚ × ℚ) × (ℚ × ℚ))) (hord : orderedCrossings ts) :
    List.Chain' (· ≤ ·) ((curveBody conv ts).map Prod.fst) := by
  cases ts with
  | nil => simp [curveBody]
  | cons t0 rest =>
    have hlen : (accQ conv 0 t0.1.1 ((t0 :: rest).map (fun t => t.2.1))).length ≤
        ((t0 :: rest).map tlVoltage).length := by
      simp [accQ_length]
    have hbody : curveBody conv (t0 :: rest) = (0, tlVoltage t0) ::
        ((accQ conv 0 t0.1.1 ((t0 :: rest).map (fun t => t.2.1))).zip
          ((t0 :: rest).map tlVoltage)) := rfl
    have hord' : List.Chain' (· ≤ ·) (t0.1.1 :: (t0 :: rest).map (fun t => t.2.1)) := hord
    rw [hbody, List.map_cons, List.map_fst_zip _ _ hlen]
    exact accQ_chain conv hconv 0 t0.1.1 _ hord'

theorem zip_tail_map_crossing : ∀ (l : List (ℚ × ℚ)) (a : ℚ × ℚ),
    (((a :: l).zip l).map (fun t => t.2.1)) = l.map Prod.fst := by
  intro l
  induction l with
  | nil => intro a; rfl
  | cons b l' ih =>
    intro a
    simp only [List.zip_cons_cons, List.map_cons]
    rw [ih b]

theorem crossingXs_tieLines (hull : List (ℚ × ℚ)) (p q : ℚ × ℚ) (rest : List (ℚ × ℚ))
    (hh : hull = p :: q :: rest) : crossingXs (tieLines hull) = hull.map Prod.fst := by
  subst hh
  show p.1 :: (((p :: q :: rest)).zip (q :: rest)).map (fun t => t.2.1) =
    (p :: q :: rest).map Prod.fst
  rw [zip_tail_map_crossing (q :: rest) p]
  rfl

theorem orderedCrossings_tieLines (hull : List (ℚ × ℚ))
    (h : List.Chain' (fun a b => a.1 ≤ b.1) hull) : orderedCrossings (tieLines hull) := by
  match hull with
  | [] => simp [orderedCrossings, tieLines, crossingXs]
  | [p] => simp [orderedCrossings, tieLines, crossingXs]
  | p :: q :: rest =>
    unfold orderedCrossings
    rw [crossingXs_tieLines _ p q rest rfl]
    exact (List.chain'_map Prod.fst).mpr h

theorem finalizeCurve_Q_body (body : List (ℚ × ℚ)) :
    (finalizeCurve body).Q.dropLast.reduceOption = body.map Prod.fst := by
  have h1 : (finalizeCurve body).Q.dropLast = body.map (fun s => some s.1) := by
    simp [finalizeCurve]
  rw [h1]
  show List.filterMap id (body.map (fun s => some s.1)) = body.map Prod.fst
  rw [List.filterMap_map]
  rw [show (id ∘ fun s : ℚ × ℚ => some s.1) = some ∘ Prod.fst from rfl]
  rw [List.filterMap_eq_map]

/-- C7: for every returned voltage curve, over a sorted walk and a
non-negative capacity conversion factor, the capacity sequence is
non-decreasing over all entries except the terminal NaN sentinel. -/
theorem capacity_nondecreasing (conv : ℚ) (input : VoltageInput)
    (hconv : 0 ≤ conv) (hsort : inputSorted input) :
    ∀ c ∈ voltage_curve conv input,
      List.Chain' (· ≤ ·) c.Q.dropLast.reduceOption := by
  intro c hc
  have hcurve : ∃ ts, c = pathway_voltage_curve conv ts ∧ orderedCrossings ts := by
    cases input with
    | binary hull =>
      simp only [voltage_curve, List.mem_singleton] at hc
      exact ⟨tieLines hull, hc, orderedCrossings_tieLines hull hsort⟩
    | ternary pws =>
      simp only [voltage_curve, List.mem_map] at hc
      obtain ⟨pw, hpw, rfl⟩ := hc
      exact ⟨pw, rfl, hsort pw hpw⟩
  obtain ⟨ts, rfl, hord⟩ := hcurve
  rw [pathway_voltage_curve, finalizeCurve_Q_body]
  exact curveBody_Q_chain conv hconv ts hord

/-- Witness for C7: the curve of a concrete sorted two-point binary hull with
conversion factor 1. -/
theorem capacity_nondecreasing_witness :
    ((0 : ℚ) ≤ 1 ∧ inputSorted (VoltageInput.binary [((0 : ℚ), (0 : ℚ)), (1, -1)]) ∧
      pathway_voltage_curve 1 (tieLines [((0 : ℚ), (0 : ℚ)), (1, -1)]) ∈
        voltage_curve 1 (VoltageInput.binary [(0, 0), (1, -1)])) ∧
      List.Chain' (· ≤ ·)
        (pathway_voltage_curve 1 (tieLines [((0 : ℚ), (0 : ℚ)), (1, -1)])).Q.dropLast.reduceOption :=
  ⟨⟨by decide, by simp [inputSorted], by simp [voltage_curve]⟩,
    capacity_nondecreasing 1 (VoltageInput.binary [(0, 0), (1, -1)]) (by decide)
      (by simp [inputSorted]) _ (by simp [voltage_curve])⟩

/-! ## Refiner per-record processing (translated from src/matador/refine.py)

Refiner.symmetry (refine.py lines 138-164) loops over the cursor; for each
document it computes the space group inside a try/except block: on any
exception the failure counter is incremented and the loop continues, on
success with a changed space group the changed counter is incremented and the
document, carrying its new space group, is appended to the diff cursor.
Refiner.__init__ (lines 91-96) then prints the changed count and the failed
count as aggregate counts over the cursor. -/

/-- A structure document as Refiner.symmetry reads it: an identifier and the
stored space group (space-group symbols modelled as naturals). -/
structure SpgDoc where
  text_id : ℕ
  space_group : ℕ
deriving DecidableEq

/-- The mutable per-run state of Refiner (refine.py lines 47-52):
changed_count, failed_count and the diff cursor of changed documents. -/
structure RefinerState where
  changed_count : ℕ
  failed_count : ℕ
  diff_cursor : List SpgDoc
deriving DecidableEq

/-- One iteration of the Refiner.symmetry loop (refine.py lines 146-164).
The space-group computation `f` models doc2spg + spglib.get_spacegroup, which
may raise (modelled by returning the value-free alternative): then
failed_count is incremented and the document is skipped.  On success with a
space group differing from the stored one, changed_count is incremented and
the document is appended to the diff cursor with its new space group. -/
def symStep (f : SpgDoc → Option ℕ) (d : SpgDoc) : RefinerState :=
  match f d with
  | Option.none => ⟨0, 1, []⟩
  | some sg =>
    if sg ≠ d.space_group then ⟨1, 0, [{ d with space_group := sg }]⟩ else ⟨0, 0, []⟩

/-- Combination of the state contributions of successive loop iterations:
counters add, diff cursors concatenate in input order. -/
def stApp (s t : RefinerState) : RefinerState :=
  ⟨s.changed_count + t.changed_count, s.failed_count + t.failed_count,
    s.diff_cursor ++ t.diff_cursor⟩

/-- Refiner.symmetry over the whole cursor (refine.py lines 146-164): the
loop accumulates the per-document contributions in order. -/
def symmetry (f : SpgDoc → Option ℕ) : List SpgDoc → RefinerState
  | [] => ⟨0, 0, []⟩
  | d :: ds => stApp (symStep f d) (symmetry f ds)

/-- The aggregate counts printed at the end of Refiner.__init__ (refine.py
lines 91-96): the changed count reported alongside the failed count. -/
def report (s : RefinerState) : ℕ × ℕ := (s.changed_count, s.failed_count)

theorem stApp_assoc (a b c : RefinerState) : stApp a (stApp b c) = stApp (stApp a b) c := by
  simp [stApp, Nat.add_assoc, List.append_assoc]

theorem symmetry_append (f : SpgDoc → Option ℕ) (l1 l2 : List SpgDoc) :
    symmetry f (l1 ++ l2) = stApp (symmetry f l1) (symmetry f l2) := by
  induction l1 with
  | nil => simp [symmetry, stApp]
  | cons d ds ih =>
    show stApp (symStep f d) (symmetry f (ds ++ l2)) =
      stApp (stApp (symStep f d) (symmetry f ds)) (symmetry f l2)
    rw [ih, stApp_assoc]

/-- C6: per-record failures are isolated.  When the space-group computation
fails on one document of the batch, that document is excluded from the diff
cursor, the failure counter is incremented by exactly one, the changed count
and diff cursor are those of the batch without the bad record (processing
continues on the remaining records), and the aggregate report carries the
failure count alongside the changed count. -/
theorem refiner_failure_isolation (f : SpgDoc → Option ℕ) (pre suf : List SpgDoc)
    (d : SpgDoc) (hd : f d = Option.none) :
    (symmetry f (pre ++ d :: suf)).changed_count = (symmetry f (pre ++ suf)).changed_count ∧
    (symmetry f (pre ++ d :: suf)).failed_count = (symmetry f (pre ++ suf)).failed_count + 1 ∧
    (symmetry f (pre ++ d :: suf)).diff_cursor = (symmetry f (pre ++ suf)).diff_cursor ∧
    report (symmetry f (pre ++ d :: suf)) =
      ((symmetry f (pre ++ suf)).changed_count, (symmetry f (pre ++ suf)).failed_count + 1) := by
  have hstep : symStep f d = ⟨0, 1, []⟩ := by simp [symStep, hd]
  have h1 : symmetry f (pre ++ d :: suf) =
      stApp (symmetry f pre) (stApp (symStep f d) (symmetry f suf)) := by
    rw [symmetry_append]
    rfl
  have h2 : symmetry f (pre ++ suf) = stApp (symmetry f pre) (symmetry f suf) :=
    symmetry_append f pre suf
  rw [h1, h2, hstep]
  simp only [stApp, report]
  refine ⟨by omega, by omega, by simp, ?_⟩
  simp only [Prod.mk.injEq]
  exact ⟨by omega, by omega⟩

/-- Witness for C6: a concrete three-document batch whose middle document
fails the space-group computation. -/
theorem refiner_failure_isolation_witness :
    ((fun d : SpgDoc => if d.text_id = 0 then Option.none else some d.space_group)
        ⟨0, 5⟩ = Option.none) ∧
    (symmetry (fun d : SpgDoc => if d.text_id = 0 then Option.none else some d.space_group)
        ([⟨1, 3⟩] ++ ⟨0, 5⟩ :: [⟨2, 4⟩])).failed_count =
      (symmetry (fun d : SpgDoc => if d.text_id = 0 then Option.none else some d.space_group)
        ([⟨1, 3⟩] ++ [⟨2, 4⟩])).failed_count + 1 :=
  ⟨by decide,
    (refiner_failure_isolation
      (fun d : SpgDoc => if d.text_id = 0 then Option.none else some d.space_group)
      [⟨1, 3⟩] [⟨2, 4⟩] ⟨0, 5⟩ (by decide)).2.1⟩

/-! ## Plot styling state (translated from src/matador/plotting/spectral_plotting.py)

plot_spectral (lines 80-91) selects a colour list from its cmap keyword and
assigns it into the shared matplotlib rcParams entry for the axes property
cycle: with cmap omitted it reads the current cycle's colours and writes them
back; with a colormap name it looks the colormap up (which can raise, ending
the call before any assignment) and writes its colours; with an explicit
colour list it writes that list.  The selected list is also stored in the
call's kwargs as the colours entry. -/

/-- The cmap keyword of plot_spectral: omitted (None), a colormap name, or an
explicit list of colours (colormap names and colours modelled as naturals,
matching the docstring's declared str/list domain). -/
inductive CmapArg where
  | omitted
  | str (name : ℕ)
  | list (colours : List ℕ)

/-- The shared matplotlib rcParams state relevant here: the colour entries of
the axes property cycle. -/
structure RCParams where
  prop_cycle : List ℕ
deriving DecidableEq

/-- Translated from plot_spectral, spectral_plotting.py lines 80-91: the
colour-selection prelude as a transformer of the shared rcParams state.
`get_cmap` models matplotlib's colormap lookup (plt.cm.get_cmap(...).colors),
which can raise for an unknown or continuous colormap — then the call aborts
before assigning (the value-free result).  A successful prelude returns the
selected colour list (the kwargs colours entry) together with the updated
rcParams. -/
def colour_prelude (get_cmap : ℕ → Option (List ℕ)) (cmap : CmapArg) (rc : RCParams) :
    Option (List ℕ × RCParams) :=
  match cmap with
  | .omitted => some (rc.prop_cycle, ⟨rc.prop_cycle⟩)
  | .str n =>
    match get_cmap n with
    | some cs => some (cs, ⟨cs⟩)
    | Option.none => Option.none
  | .list cs => some (cs, ⟨cs⟩)

/-- C9: every call of plot_spectral that completes its colour-selection
prelude has assigned the selected colour list into the shared rcParams
property cycle — the resulting shared state carries exactly the selected
colours, and a subsequent call (with cmap omitted) observes precisely that
list, rather than receiving styling through an explicit configuration
object. -/
theorem plot_spectral_sets_prop_cycle (get_cmap : ℕ → Option (List ℕ))
    (cmap : CmapArg) (rc : RCParams) (cs : List ℕ) (rc' : RCParams)
    (h : colour_prelude get_cmap cmap rc = some (cs, rc')) :
    rc'.prop_cycle = cs ∧
      colour_prelude get_cmap CmapArg.omitted rc' = some (cs, rc') := by
  cases cmap with
  | omitted =>
    simp only [colour_prelude, Option.some.injEq, Prod.mk.injEq] at h
    obtain ⟨h1, h2⟩ := h
    subst h1
    subst h2
    exact ⟨rfl, rfl⟩
  | str n =>
    cases hg : get_cmap n with
    | none => rw [colour_prelude, hg] at h; exact absurd h (by simp)
    | some cs0 =>
      rw [colour_prelude, hg] at h
      simp only [Option.some.injEq, Prod.mk.injEq] at h
      obtain ⟨h1, h2⟩ := h
      subst h1
      subst h2
      exact ⟨rfl, rfl⟩
  | list cs0 =>
    simp only [colour_prelude, Option.some.injEq, Prod.mk.injEq] at h
    obtain ⟨h1, h2⟩ := h
    subst h1
    subst h2
    exact ⟨rfl, rfl⟩

/-- Witness for C9: a colormap-name call under a lookup environment that
knows one colormap. -/
theorem plot_spectral_sets_prop_cycle_witness :
    (colour_prelude (fun _ => some [1, 2]) (CmapArg.str 0) ⟨[]⟩ = some ([1, 2], ⟨[1, 2]⟩)) ∧
      ((⟨[1, 2]⟩ : RCParams).prop_cycle = [1, 2] ∧
        colour_prelude (fun _ => some [1, 2]) CmapArg.omitted ⟨[1, 2]⟩ =
          some ([1, 2], ⟨[1, 2]⟩)) :=
  ⟨rfl, plot_spectral_sets_prop_cycle (fun _ => some [1, 2]) (CmapArg.str 0) ⟨[]⟩ [1, 2]
    ⟨[1, 2]⟩ rfl⟩

/-! ## Document-store bulk update (translated from src/matador/refine.py)

Refiner.update_docs (refine.py lines 101-117) builds one UpdateOne request
per document of the diff cursor.  In set mode the request's filter requires
the target field to not exist on the stored document; in overwrite mode the
filter matches on _id alone and the field is set unconditionally.
Refiner.__init__ (lines 98-99) invokes update_docs only when the mode is set
or overwrite and at least one document changed — in display mode no bulk
write is ever issued.  Field names and values are modelled as naturals; a
stored document's fields are a partial map. -/

/-- A stored document: its _id and its fields as a partial map. -/
structure DbDoc where
  _id : ℕ
  fields : ℕ → Option ℕ

/-- The Refiner modes (refine.py line 32, possible_modes). -/
inductive Mode where
  | display
  | overwrite
  | set
deriving DecidableEq

/-- A pymongo UpdateOne request as update_docs builds it: the _id filter, a
flag recording whether the filter also requires the target field to not
exist, and the field/value pair of the $set document. -/
structure UpdateOne where
  filter_id : ℕ
  filter_requires_absent : Bool
  field : ℕ
  value : ℕ
deriving DecidableEq

/-- Translated from update_docs, refine.py lines 103-111: one request per
diff-cursor document.  Set mode filters on the field not existing; overwrite
mode filters on _id alone.  The $set value is the diff document's own field
value (a diff document lacking the field would make the Python raise before
any request is built; such documents contribute no request here, and the
theorems below assume the field is present). -/
def updateRequests (mode : Mode) (field : ℕ) (diff : List DbDoc) : List UpdateOne :=
  match mode with
  | .set => diff.filterMap (fun d => (d.fields field).map (fun v => ⟨d._id, true, field, v⟩))
  | .overwrite =>
    diff.filterMap (fun d => (d.fields field).map (fun v => ⟨d._id, false, field, v⟩))
  | .display => []

/-- MongoDB filter semantics of one request against one stored document:
the _id must match, and when the request requires absence the target field
must not exist on the document. -/
def docMatches (r : UpdateOne) (d : DbDoc) : Bool :=
  d._id == r.filter_id && (!r.filter_requires_absent || (d.fields r.field).isNone)

/-- Applying a $set document: the target field is set, everything else kept. -/
def setField (field v : ℕ) (d : DbDoc) : DbDoc :=
  ⟨d._id, fun fl => if fl = field then some v else d.fields fl⟩

/-- UpdateOne semantics: the first stored document matching the filter is
updated by the $set document; all others are untouched. -/
def applyUpdateOne (r : UpdateOne) : List DbDoc → List DbDoc
  | [] => []
  | d :: ds =>
    if docMatches r d then setField r.field r.value d :: ds
    else d :: applyUpdateOne r ds

/-- collection.bulk_write (refine.py line 116): the requests are applied in
order. -/
def bulk_write (rs : List UpdateOne) (store : List DbDoc) : List DbDoc :=
  rs.foldl (fun st r => applyUpdateOne r st) store

/-- Refiner.update_docs (refine.py lines 101-117) as its effect on the
collection. -/
def update_docs (mode : Mode) (field : ℕ) (diff : List DbDoc)
    (store : List DbDoc) : List DbDoc :=
  bulk_write (updateRequests mode field diff) store

/-- The gate at the end of Refiner.__init__ (refine.py lines 98-99):
update_docs runs only in set or overwrite mode with a positive changed
count; otherwise the collection is untouched. -/
def refinerUpdateGate (mode : Mode) (changed_count : ℕ) (field : ℕ)
    (diff store : List DbDoc) : List DbDoc :=
  if (mode = Mode.set ∨ mode = Mode.overwrite) ∧ 0 < changed_count then
    update_docs mode field diff store
  else store

theorem applyUpdateOne_skips_existing (r : UpdateOne)
    (habs : r.filter_requires_absent = true) :
    ∀ (store : List DbDoc) (i : ℕ) (d : DbDoc), store.get? i = some d →
      (d.fields r.field).isSome → (applyUpdateOne r store).get? i = some d := by
  intro store
  induction store with
  | nil => intro i d h _; simp at h
  | cons d0 ds ih =>
    intro i d hget hsome
    by_cases hm : docMatches r d0
    · have hres : applyUpdateOne r (d0 :: ds) = setField r.field r.value d0 :: ds := by
        simp [applyUpdateOne, hm]
      cases i with
      | zero =>
        obtain rfl : d0 = d := by simpa using hget
        exfalso
        have := (Bool.and_eq_true _ _).mp hm
        rw [habs] at this
        simp only [Bool.not_true, Bool.false_or] at this
        rw [Option.isNone_iff_eq_none.mp this.2] at hsome
        simp at hsome
      | succ j =>
        rw [hres]
        simpa using hget
    · have hres : applyUpdateOne r (d0 :: ds) = d0 :: applyUpdateOne r ds := by
        simp [applyUpdateOne, hm]
      cases i with
      | zero => rw [hres]; simpa using hget
      | succ j =>
        rw [hres]
        simp only [List.get?_cons_succ] at hget ⊢
        exact ih j d hget hsome

theorem bulk_write_skips_existing (field : ℕ) :
    ∀ (rs : List UpdateOne), (∀ r ∈ rs, r.filter_requires_absent = true ∧ r.field = field) →
      ∀ (store : List DbDoc) (i : ℕ) (d : DbDoc), store.get? i = some d →
        (d.fields field).isSome → (bulk_write rs store).get? i = some d := by
  intro rs
  induction rs with
  | nil => intro _ store i d h hs; exact h
  | cons r rs' ih =>
    intro hall store i d hget hsome
    obtain ⟨habs, hfield⟩ := hall r (List.mem_cons_self r rs')
    have hstep : (applyUpdateOne r store).get? i = some d := by
      apply applyUpdateOne_skips_existing r habs store i d hget
      rw [hfield]
      exact hsome
    exact ih (fun r' hr' => hall r' (List.mem_cons_of_mem r hr')) _ i d hstep hsome

theorem updateRequests_set_absent (field : ℕ) (diff : List DbDoc) :
    ∀ r ∈ updateRequests Mode.set field diff,
      r.filter_requires_absent = true ∧ r.field = field := by
  intro r hr
  simp only [updateRequests, List.mem_filterMap] at hr
  obtain ⟨d, -, hd⟩ := hr
  cases hv : d.fields field with
  | none => rw [hv] at hd; simp at hd
  | some v =>
    rw [hv] at hd
    simp only [Option.map_some', Option.some.injEq] at hd
    rw [← hd]
    exact ⟨rfl, rfl⟩

theorem setField_id (field v : ℕ) (d : DbDoc) : (setField field v d)._id = d._id := rfl

theorem setField_self (field v : ℕ) (d : DbDoc) :
    (setField field v d).fields field = some v := by
  simp [setField]

theorem applyUpdateOne_other_id (r : UpdateOne) :
    ∀ (store : List DbDoc) (j : ℕ) (e : DbDoc), store.get? j = some e →
      e._id ≠ r.filter_id → (applyUpdateOne r store).get? j = some e := by
  intro store
  induction store with
  | nil => intro j e h _; simp at h
  | cons d0 ds ih =>
    intro j e hget hne
    by_cases hm : docMatches r d0
    · have hres : applyUpdateOne r (d0 :: ds) = setField r.field r.value d0 :: ds := by
        simp [applyUpdateOne, hm]
      cases j with
      | zero =>
        obtain rfl : d0 = e := by simpa using hget
        exfalso
        have hbeq := ((Bool.and_eq_true _ _).mp hm).1
        have heq : d0._id = r.filter_id := by simpa using hbeq
        exact hne heq
      | succ j' =>
        rw [hres]
        simpa using hget
    · have hres : applyUpdateOne r (d0 :: ds) = d0 :: applyUpdateOne r ds := by
        simp [applyUpdateOne, hm]
      cases j with
      | zero => rw [hres]; simpa using hget
      | succ j' =>
        rw [hres]
        simp only [List.get?_cons_succ] at hget ⊢
        exact ih j' e hget hne

theorem bulk_write_other_id :
    ∀ (rs : List UpdateOne) (store : List DbDoc) (j : ℕ) (e : DbDoc),
      store.get? j = some e → (∀ r ∈ rs, r.filter_id ≠ e._id) →
      (bulk_write rs store).get? j = some e := by
  intro rs
  induction rs with
  | nil => intro store j e h _; exact h
  | cons r rs' ih =>
    intro store j e hget hall
    have hstep : (applyUpdateOne r store).get? j = some e :=
      applyUpdateOne_other_id r store j e hget
        (fun hcontra => hall r (List.mem_cons_self r rs') hcontra.symm)
    exact ih _ j e hstep (fun r' hr' => hall r' (List.mem_cons_of_mem r hr'))

theorem applyUpdateOne_hits_match (r : UpdateOne) :
    ∀ (store : List DbDoc) (j : ℕ) (e : DbDoc), store.get? j = some e →
      docMatches r e = true →
      (∀ (j' : ℕ) (e' : DbDoc), j' < j → store.get? j' = some e' →
        docMatches r e' = false) →
      (applyUpdateOne r store).get? j = some (setField r.field r.value e) := by
  intro store
  induction store with
  | nil => intro j e h _ _; simp at h
  | cons d0 ds ih =>
    intro j e hget hmatch hearlier
    cases j with
    | zero =>
      obtain rfl : d0 = e := by simpa using hget
      have hres : applyUpdateOne r (d0 :: ds) = setField r.field r.value d0 :: ds := by
        simp [applyUpdateOne, hmatch]
      rw [hres]
      rfl
    | succ j' =>
      have h0 : docMatches r d0 = false :=
        hearlier 0 d0 (Nat.succ_pos j') rfl
      have hres : applyUpdateOne r (d0 :: ds) = d0 :: applyUpdateOne r ds := by
        simp [applyUpdateOne, h0]
      rw [hres]
      simp only [List.get?_cons_succ] at hget ⊢
      exact ih j' e hget hmatch
        (fun j'' e'' hj'' hget'' =>
          hearlier (j'' + 1) e'' (Nat.succ_lt_succ hj'') hget'')

theorem applyUpdateOne_ids (r : UpdateOne) :
    ∀ (store : List DbDoc),
      (applyUpdateOne r store).map (fun d => d._id) = store.map (fun d => d._id) := by
  intro store
  induction store with
  | nil => rfl
  | cons d0 ds ih =>
    by_cases hm : docMatches r d0
    · simp [applyUpdateOne, hm, setField_id]
    · simp [applyUpdateOne, hm, ih]

theorem bulk_write_ids :
    ∀ (rs : List UpdateOne) (store : List DbDoc),
      (bulk_write rs store).map (fun d => d._id) = store.map (fun d => d._id) := by
  intro rs
  induction rs with
  | nil => intro store; rfl
  | cons r rs' ih =>
    intro store
    show (bulk_write rs' (applyUpdateOne r store)).map (fun d => d._id) = _
    rw [ih, applyUpdateOne_ids]

theorem updateRequests_overwrite_spec (field : ℕ) (l : List DbDoc) :
    ∀ r ∈ updateRequests Mode.overwrite field l, ∃ d' ∈ l, r.filter_id = d'._id := by
  intro r hr
  simp only [updateRequests, List.mem_filterMap] at hr
  obtain ⟨d', hd', hmap⟩ := hr
  cases hv : d'.fields field with
  | none => rw [hv] at hmap; simp at hmap
  | some v =>
    rw [hv] at hmap
    simp only [Option.map_some', Option.some.injEq] at hmap
    exact ⟨d', hd', by rw [← hmap]⟩

theorem pairwise_get?_ne (store : List DbDoc)
    (hU : store.Pairwise (fun a b => a._id ≠ b._id)) :
    ∀ (j j' : ℕ) (e e0 : DbDoc), j' < j → store.get? j' = some e0 →
      store.get? j = some e → e0._id ≠ e._id := by
  intro j j' e e0 hlt h0 h1
  rw [List.get?_eq_some] at h0 h1
  obtain ⟨hb0, hg0⟩ := h0
  obtain ⟨hb1, hg1⟩ := h1
  have := List.pairwise_iff_get.mp hU ⟨j', hb0⟩ ⟨j, hb1⟩ hlt
  rw [hg0, hg1] at this
  exact this

theorem bulk_write_get?_id (rs : List UpdateOne) (store : List DbDoc) (j : ℕ)
    (e' : DbDoc) (h : (bulk_write rs store).get? j = some e') :
    ∃ e0, store.get? j = some e0 ∧ e'._id = e0._id := by
  have h1 : ((bulk_write rs store).map (fun d => d._id)).get? j = some e'._id := by
    rw [List.get?_map, h]
    rfl
  rw [bulk_write_ids, List.get?_map] at h1
  cases h0 : store.get? j with
  | none => rw [h0] at h1; simp at h1
  | some e0 =>
    rw [h0] at h1
    simp only [Option.map_some', Option.some.injEq] at h1
    exact ⟨e0, rfl, h1.symm⟩

theorem update_docs_overwrite_sets (field : ℕ) (diff store : List DbDoc)
    (hdU : diff.Pairwise (fun a b => a._id ≠ b._id))
    (hsU : store.Pairwise (fun a b => a._id ≠ b._id))
    (d : DbDoc) (hd : d ∈ diff) (v : ℕ) (hv : d.fields field = some v)
    (j : ℕ) (e : DbDoc) (hget : store.get? j = some e) (hid : e._id = d._id) :
    (update_docs Mode.overwrite field diff store).get? j = some (setField field v e) := by
  obtain ⟨pre, suf, rfl⟩ := List.append_of_mem hd
  have hreq : updateRequests Mode.overwrite field (pre ++ d :: suf) =
      updateRequests Mode.overwrite field pre ++
        (⟨d._id, false, field, v⟩ :: updateRequests Mode.overwrite field suf) := by
    simp [updateRequests, List.filterMap_append, List.filterMap_cons, hv]
  rw [List.pairwise_append] at hdU
  obtain ⟨hpreU, hdsufU, hcross⟩ := hdU
  have hdsuf : ∀ b ∈ suf, d._id ≠ b._id := (List.pairwise_cons.mp hdsufU).1
  have hA : (bulk_write (updateRequests Mode.overwrite field pre) store).get? j = some e := by
    apply bulk_write_other_id _ store j e hget
    intro r hr
    obtain ⟨d', hd', hrid⟩ := updateRequests_overwrite_spec field pre r hr
    rw [hrid, hid]
    exact hcross d' hd' d (List.mem_cons_self d suf)
  have hmatch : docMatches ⟨d._id, false, field, v⟩ e = true := by
    simp [docMatches, hid]
  have hB : (applyUpdateOne ⟨d._id, false, field, v⟩
      (bulk_write (updateRequests Mode.overwrite field pre) store)).get? j =
      some (setField field v e) := by
    apply applyUpdateOne_hits_match _ _ j e hA hmatch
    intro j' e' hlt hget'
    obtain ⟨e0, hget0, hide⟩ := bulk_write_get?_id _ store j' e' hget'
    have hne : e0._id ≠ e._id := pairwise_get?_ne store hsU j j' e e0 hlt hget0 hget
    have hne' : e'._id ≠ d._id := by
      rw [hide, ← hid]
      exact hne
    simp [docMatches, hne']
  have hsplit : update_docs Mode.overwrite field (pre ++ d :: suf) store =
      bulk_write (updateRequests Mode.overwrite field suf)
        (applyUpdateOne ⟨d._id, false, field, v⟩
          (bulk_write (updateRequests Mode.overwrite field pre) store)) := by
    rw [update_docs, hreq]
    simp [bulk_write, List.foldl_append]
  rw [hsplit]
  apply bulk_write_other_id _ _ j _ hB
  intro r hr
  obtain ⟨d', hd', hrid⟩ := updateRequests_overwrite_spec field suf r hr
  rw [hrid]
  show d'._id ≠ (setField field v e)._id
  rw [setField_id, hid]
  exact fun hcon => (hdsuf d' hd') hcon.symm

/-- C10: mode semantics of the document-store bulk update.  In set mode the
bulk update never modifies a stored document that already possesses the
target field (every request's filter requires the field to not exist); in
overwrite mode the field is set unconditionally on every changed document (in
a store and diff cursor with unique _ids, the stored document sharing a
changed document's _id ends up with that document's field value); and in
display mode — or with no changed records — no bulk write is issued at all,
the collection being left untouched. -/
theorem update_docs_mode_semantics :
    (∀ (field : ℕ) (diff store : List DbDoc) (i : ℕ) (d : DbDoc),
      store.get? i = some d → (d.fields field).isSome →
      (update_docs Mode.set field diff store).get? i = some d) ∧
    (∀ (field : ℕ) (diff store : List DbDoc),
      diff.Pairwise (fun a b => a._id ≠ b._id) →
      store.Pairwise (fun a b => a._id ≠ b._id) →
      ∀ d ∈ diff, ∀ (v : ℕ), d.fields field = some v →
        ∀ (j : ℕ) (e : DbDoc), store.get? j = some e → e._id = d._id →
          (update_docs Mode.overwrite field diff store).get? j =
            some (setField field v e)) ∧
    (∀ (field changed : ℕ) (diff store : List DbDoc),
      refinerUpdateGate Mode.display changed field diff store = store ∧
      (∀ mode : Mode, refinerUpdateGate mode 0 field diff store = store)) := by
  refine ⟨?_, ?_, ?_⟩
  · intro field diff store i d hget hsome
    exact bulk_write_skips_existing field (updateRequests Mode.set field diff)
      (updateRequests_set_absent field diff) store i d hget hsome
  · intro field diff store hdU hsU d hd v hv j e hget hid
    exact update_docs_overwrite_sets field diff store hdU hsU d hd v hv j e hget hid
  · intro field changed diff store
    constructor
    · simp [refinerUpdateGate]
    · intro mode
      simp [refinerUpdateGate]

/-- Document with the target field present, used by the C10 witness. -/
def docWithField : DbDoc := ⟨1, fun _ => some 7⟩

/-- Changed document of the diff cursor, used by the C10 witness. -/
def diffDoc : DbDoc := ⟨1, fun fl => if fl = 0 then some 9 else Option.none⟩

/-- Stored document lacking the target field, used by the C10 witness. -/
def bareDoc : DbDoc := ⟨1, fun _ => Option.none⟩

/-- Witness for C10: concrete one-document stores for each of the three
modes. -/
theorem update_docs_mode_semantics_witness :
    ((([docWithField].get? 0 = some docWithField) ∧ (docWithField.fields 0).isSome) ∧
      (update_docs Mode.set 0 [] [docWithField]).get? 0 = some docWithField) ∧
    ((List.Pairwise (fun a b : DbDoc => a._id ≠ b._id) [diffDoc] ∧
        List.Pairwise (fun a b : DbDoc => a._id ≠ b._id) [bareDoc] ∧
        diffDoc ∈ [diffDoc] ∧ diffDoc.fields 0 = some 9 ∧
        [bareDoc].get? 0 = some bareDoc ∧ bareDoc._id = diffDoc._id) ∧
      (update_docs Mode.overwrite 0 [diffDoc] [bareDoc]).get? 0 =
        some (setField 0 9 bareDoc)) ∧
    refinerUpdateGate Mode.display 5 0 [diffDoc] [bareDoc] = [bareDoc] :=
  ⟨⟨⟨rfl, rfl⟩,
      update_docs_mode_semantics.1 0 [] [docWithField] 0 docWithField rfl rfl⟩,
    ⟨⟨by simp, by simp, by simp, rfl, rfl, rfl⟩,
      update_docs_mode_semantics.2.1 0 [diffDoc] [bareDoc] (by simp) (by simp)
        diffDoc (by simp) 9 rfl 0 bareDoc rfl rfl⟩,
    (update_docs_mode_semantics.2.2 0 5 [diffDoc] [bareDoc]).1⟩

end Matador
